import Mathlib

/-!
Verification of the percolation simulation core.

The program keeps a width times height grid of cells, each Empty,
Occupied or Percolated.  Every frame the grid is redrawn from an
occupation probability (update_grid) and a breadth-first search from a
fixed seed on the left edge marks the seed-connected Occupied cluster
Percolated and reports whether the right edge was reached
(check_percolation).  A controller feedback routine maps the probability
and the percolation flag to rumble, trigger force and lightbar outputs.

The grid is modelled as a total function from integer coordinates to
cell states; only the coordinates inside the box matter.  The random
draws of update_grid are modelled as an explicit function giving, for
each cell, the uniform sample the code compares against p.  The BFS
while-loop is modelled with explicit fuel; the fuel is shown to be large
enough (the returned state has its read position at the end of the
queue, and the result does not change when the fuel grows).
-/

namespace Percolation

/-- Cell states: EMPTY = 0, OCCUPIED = 1, PERCOLATED = 2 in the source. -/
inductive Cell where
  | empty
  | occupied
  | percolated
deriving DecidableEq

/-- A grid assigns a cell state to every pair of integer coordinates. -/
abbrev Grid := Int → Int → Cell

/-- A position, written (x, y) with x the column and y the row. -/
abbrev Pos := Int × Int

/-- Pointwise update of one cell of the grid. -/
def setCell (g : Grid) (p : Pos) (c : Cell) : Grid :=
  fun x y => if x = p.1 ∧ y = p.2 then c else g x y

/-- Reset pass of check_percolation: every Percolated cell becomes
Occupied again (grid[grid == PERCOLATED] = OCCUPIED). -/
def resetPercolated (g : Grid) : Grid :=
  fun x y => if g x y = Cell.percolated then Cell.occupied else g x y

/-- Bounds check of the BFS body: 0 <= nx < width and 0 <= ny < height. -/
def inB (w h : Nat) (p : Pos) : Prop :=
  0 ≤ p.1 ∧ p.1 < (w : Int) ∧ 0 ≤ p.2 ∧ p.2 < (h : Int)

instance (w h : Nat) (p : Pos) : Decidable (inB w h p) := by
  unfold inB; infer_instance

/-- The four neighbour candidates of a cell, in the order of the source
offsets (0,1), (0,-1), (1,0), (-1,0). -/
def nbrs (p : Pos) : List Pos :=
  [(p.1, p.2 + 1), (p.1, p.2 - 1), (p.1 + 1, p.2), (p.1 - 1, p.2)]

/-- The seed cell (0, height / 2), integer division as in the source. -/
def seedPos (h : Nat) : Pos := ((0 : Int), ((h / 2 : Nat) : Int))

/-- One neighbour visit of the BFS body: if the candidate is in bounds
and Occupied, it is marked Percolated and appended to the queue. -/
def visit (w h : Nat) (gq : Grid × List Pos) (n : Pos) : Grid × List Pos :=
  if inB w h n ∧ gq.1 n.1 n.2 = Cell.occupied then
    (setCell gq.1 n Cell.percolated, gq.2 ++ [n])
  else gq

/-- The state of the BFS while-loop: the grid, the queue (which keeps
every position ever enqueued; q is only appended to), the read position
head, and the percolates flag. -/
structure BfsState where
  grid : Grid
  q : List Pos
  head : Nat
  percolates : Bool

/-- The while-loop of check_percolation (while head < len(q)), with
explicit fuel.  Each iteration reads q[head], records whether that cell
is in the rightmost column, visits its four neighbours in source order,
and advances head. -/
def bfsLoop (w h : Nat) : Nat → BfsState → BfsState
  | 0, s => s
  | fuel + 1, s =>
    match s.q[s.head]? with
    | none => s
    | some p =>
      let perc := s.percolates || decide (p.1 = (w : Int) - 1)
      let gq := (nbrs p).foldl (visit w h) (s.grid, s.q)
      bfsLoop w h fuel { grid := gq.1, q := gq.2, head := s.head + 1, percolates := perc }

/-- Number of Occupied cells inside the box; the termination measure of
the loop (each enqueue turns one in-bounds Occupied cell Percolated). -/
def occCount (w h : Nat) (g : Grid) : Nat :=
  ((Finset.range w ×ˢ Finset.range h).filter
    fun a => g (a.1 : Int) (a.2 : Int) = Cell.occupied).card

/-- The PercolationSystem class: width, height and the grid. -/
structure PercolationSystem where
  width : Nat
  height : Nat
  grid : Grid

/-- The constructor: np.zeros gives an all-Empty grid. -/
def PercolationSystem.init (width height : Nat) : PercolationSystem :=
  { width := width, height := height, grid := fun _ _ => Cell.empty }

/-- update_grid: the whole grid is reassigned; a cell becomes Occupied
exactly when its uniform draw r x y is strictly below p, else Empty. -/
def PercolationSystem.update_grid (sys : PercolationSystem) (r : Int → Int → ℚ) (p : ℚ) :
    PercolationSystem :=
  { sys with grid := fun x y => if r x y < p then Cell.occupied else Cell.empty }

/-- The whole BFS run of check_percolation: reset the Percolated marks,
force-mark the seed Percolated, seed the queue and run the loop. -/
def checkRun (sys : PercolationSystem) : BfsState :=
  bfsLoop sys.width sys.height (sys.width * sys.height + 1)
    { grid := setCell (resetPercolated sys.grid) (seedPos sys.height) Cell.percolated,
      q := [seedPos sys.height], head := 0, percolates := false }

/-- check_percolation: returns the updated system and the flag. -/
def PercolationSystem.check_percolation (sys : PercolationSystem) :
    PercolationSystem × Bool :=
  ({ sys with grid := (checkRun sys).grid }, (checkRun sys).percolates)

/-- Reachability from the seed through Occupied cells: the seed is
reachable unconditionally (it is force-marked), and every in-bounds
Occupied neighbour of a reachable cell is reachable. -/
inductive Reach (w h : Nat) (g : Grid) : Pos → Prop where
  | seed : Reach w h g (seedPos h)
  | step {p n : Pos} : Reach w h g p → n ∈ nbrs p → inB w h n →
      g n.1 n.2 = Cell.occupied → Reach w h g n

/-- The cells the check marks Percolated: the seed, and every Occupied
cell reachable from the seed (g is the grid after the reset pass). -/
def MarkedP (w h : Nat) (g : Grid) (p : Pos) : Prop :=
  p = seedPos h ∨ (g p.1 p.2 = Cell.occupied ∧ Reach w h g p)

/-- Truncation toward zero, the behaviour of Python int() on a float. -/
def truncInt (x : ℚ) : Int :=
  if 0 ≤ x then ⌊x⌋ else ⌈x⌉

/-- The outputs of set_percolation_feedback: rumble level, R2 trigger
force, and the lightbar colour. -/
structure Feedback where
  rightMotor : Int
  triggerForce : Int
  lightColor : Int × Int × Int

namespace ControllerManager

/-- set_percolation_feedback: the values the method writes to the
controller, as a function of its inputs. -/
def set_percolation_feedback (is_percolated : Bool) (p : ℚ) (p_range : ℚ × ℚ)
    (critical_point : ℚ) : Feedback :=
  let motor : Int := if is_percolated then 200 else 0
  let force : Int :=
    if p < critical_point then
      let force_factor : ℚ := if critical_point > 0 then (p / critical_point) ^ 4 else 1
      truncInt (255 * force_factor)
    else 255
  let color : Int × Int × Int :=
    if is_percolated then (255, 255, 255)
    else
      let lower_bound := p_range.1
      let upper_bound := p_range.2
      let p_normalized : ℚ :=
        if upper_bound - lower_bound > 0 then (p - lower_bound) / (upper_bound - lower_bound)
        else 0
      let clipped : ℚ := max 0 (min 1 p_normalized)
      (truncInt (255 * clipped), 0, truncInt (255 * (1 - clipped)))
  { rightMotor := motor, triggerForce := force, lightColor := color }

end ControllerManager

/-- Queue soundness and grid bookkeeping of the BFS, relative to the
reset grid g0: the queue has no duplicates, contains the seed, contains
only the seed and in-bounds Occupied reachable cells, and the current
grid is g0 with exactly the queued cells turned Percolated. -/
structure MidInv (w h : Nat) (g0 : Grid) (g : Grid) (q : List Pos) : Prop where
  nodup : q.Nodup
  seed_mem : seedPos h ∈ q
  sound : ∀ p ∈ q, p = seedPos h ∨ (inB w h p ∧ g0 p.1 p.2 = Cell.occupied ∧ Reach w h g0 p)
  perc_iff : ∀ p : Pos, g p.1 p.2 = Cell.percolated ↔ p ∈ q
  frame : ∀ p : Pos, p ∉ q → g p.1 p.2 = g0 p.1 p.2

/-- The full loop invariant: the bookkeeping above, the read position is
inside the queue, every neighbour of an already-processed cell that is
Occupied in g0 has been enqueued, and the flag records whether some
processed cell lies in the rightmost column. -/
structure LoopInv (w h : Nat) (g0 : Grid) (s : BfsState) : Prop where
  mid : MidInv w h g0 s.grid s.q
  head_le : s.head ≤ s.q.length
  closed : ∀ i, i < s.head → ∀ pi, s.q[i]? = some pi →
    ∀ n ∈ nbrs pi, inB w h n → g0 n.1 n.2 = Cell.occupied → n ∈ s.q
  percSpec : s.percolates = true ↔
    ∃ i, i < s.head ∧ ∃ pi, s.q[i]? = some pi ∧ pi.1 = (w : Int) - 1

theorem setCell_self (g : Grid) (p : Pos) (c : Cell) : setCell g p c p.1 p.2 = c := by
  simp [setCell]

theorem setCell_of_ne (g : Grid) (p : Pos) (c : Cell) (x y : Int)
    (hne : (x, y) ≠ p) : setCell g p c x y = g x y := by
  have hc : ¬(x = p.1 ∧ y = p.2) := by
    rintro ⟨rfl, rfl⟩
    exact hne rfl
  simp [setCell, hc]

theorem resetPercolated_ne_percolated (g : Grid) (x y : Int) :
    resetPercolated g x y ≠ Cell.percolated := by
  unfold resetPercolated
  split <;> simp_all

theorem resetPercolated_of_ne (g : Grid) (x y : Int) (hp : g x y ≠ Cell.percolated) :
    resetPercolated g x y = g x y := by
  simp [resetPercolated, hp]

theorem resetPercolated_of_percolated (g : Grid) (x y : Int)
    (hp : g x y = Cell.percolated) : resetPercolated g x y = Cell.occupied := by
  simp [resetPercolated, hp]

theorem occCount_le (w h : Nat) (g : Grid) : occCount w h g ≤ w * h := by
  unfold occCount
  calc ((Finset.range w ×ˢ Finset.range h).filter
        fun a => g (a.1 : Int) (a.2 : Int) = Cell.occupied).card
      ≤ (Finset.range w ×ˢ Finset.range h).card := Finset.card_filter_le _ _
    _ = w * h := by rw [Finset.card_product, Finset.card_range, Finset.card_range]

theorem occCount_setCell (w h : Nat) (g : Grid) (n : Pos) (hb : inB w h n)
    (ho : g n.1 n.2 = Cell.occupied) :
    occCount w h (setCell g n Cell.percolated) + 1 ≤ occCount w h g := by
  obtain ⟨h1, h2, h3, h4⟩ := hb
  have hm1 : ((n.1.toNat : Nat) : Int) = n.1 := by omega
  have hm2 : ((n.2.toNat : Nat) : Int) = n.2 := by omega
  have hmS : (n.1.toNat, n.2.toNat) ∈ Finset.range w ×ˢ Finset.range h := by
    rw [Finset.mem_product, Finset.mem_range, Finset.mem_range]
    constructor <;> omega
  have hmF : (n.1.toNat, n.2.toNat) ∈ (Finset.range w ×ˢ Finset.range h).filter
      (fun a => g (a.1 : Int) (a.2 : Int) = Cell.occupied) := by
    rw [Finset.mem_filter]
    refine ⟨hmS, ?_⟩
    show g ((n.1.toNat : Nat) : Int) ((n.2.toNat : Nat) : Int) = Cell.occupied
    rw [hm1, hm2]; exact ho
  have hsub : (Finset.range w ×ˢ Finset.range h).filter
      (fun a => setCell g n Cell.percolated (a.1 : Int) (a.2 : Int) = Cell.occupied)
      ⊆ ((Finset.range w ×ˢ Finset.range h).filter
        (fun a => g (a.1 : Int) (a.2 : Int) = Cell.occupied)).erase (n.1.toNat, n.2.toNat) := by
    intro a ha
    rw [Finset.mem_filter] at ha
    rw [Finset.mem_erase, Finset.mem_filter]
    have hane : a ≠ (n.1.toNat, n.2.toNat) := by
      rintro rfl
      have hval := ha.2
      simp only at hval
      rw [hm1, hm2, setCell_self] at hval
      exact absurd hval (by decide)
    refine ⟨hane, ha.1, ?_⟩
    have hne2 : ((a.1 : Int), (a.2 : Int)) ≠ n := by
      intro he
      apply hane
      have e1 : (a.1 : Int) = n.1 := congrArg Prod.fst he
      have e2 : (a.2 : Int) = n.2 := congrArg Prod.snd he
      have f1 : a.1 = n.1.toNat := by omega
      have f2 : a.2 = n.2.toNat := by omega
      exact Prod.ext f1 f2
    have := ha.2
    rwa [setCell_of_ne g n Cell.percolated (a.1 : Int) (a.2 : Int) hne2] at this
  have hcard := Finset.card_le_card hsub
  rw [Finset.card_erase_of_mem hmF] at hcard
  have hpos : 0 < ((Finset.range w ×ˢ Finset.range h).filter
      (fun a => g (a.1 : Int) (a.2 : Int) = Cell.occupied)).card :=
    Finset.card_pos.mpr ⟨_, hmF⟩
  unfold occCount
  omega

theorem getElem?_some_lt {α : Type} (l : List α) (i : Nat) (a : α)
    (h : l[i]? = some a) : i < l.length := by
  by_contra hcon
  rw [List.getElem?_eq_none (by omega)] at h
  exact Option.noConfusion h

theorem mem_of_getElem?_some {α : Type} (l : List α) (i : Nat) (a : α)
    (h : l[i]? = some a) : a ∈ l := by
  have hlt := getElem?_some_lt l i a h
  rw [List.getElem?_eq_getElem hlt] at h
  rw [← Option.some.inj h]
  exact List.getElem_mem hlt

theorem getElem?_some_of_mem {α : Type} (l : List α) (a : α) (h : a ∈ l) :
    ∃ i : Nat, l[i]? = some a := by
  rcases List.mem_iff_getElem.mp h with ⟨i, hi, he⟩
  refine ⟨i, ?_⟩
  rw [List.getElem?_eq_getElem hi, he]

theorem visit_measure (w h : Nat) (g : Grid) (q : List Pos) (n : Pos) :
    occCount w h (visit w h (g, q) n).1 + (visit w h (g, q) n).2.length
      ≤ occCount w h g + q.length
    ∧ ∃ t, (visit w h (g, q) n).2 = q ++ t := by
  by_cases hc : inB w h n ∧ g n.1 n.2 = Cell.occupied
  · simp only [visit, hc, and_self, if_true]
    constructor
    · have := occCount_setCell w h g n hc.1 hc.2
      simp only [List.length_append, List.length_cons, List.length_nil]
      omega
    · exact ⟨[n], rfl⟩
  · simp only [visit, if_neg hc]
    exact ⟨le_refl _, [], by simp⟩

theorem foldl_visit_measure (w h : Nat) (L : List Pos) :
    ∀ (g : Grid) (q : List Pos),
    occCount w h (L.foldl (visit w h) (g, q)).1 + (L.foldl (visit w h) (g, q)).2.length
      ≤ occCount w h g + q.length
    ∧ ∃ t, (L.foldl (visit w h) (g, q)).2 = q ++ t := by
  induction L with
  | nil => intro g q; exact ⟨le_refl _, [], by simp⟩
  | cons n L ih =>
    intro g q
    rcases hv : visit w h (g, q) n with ⟨g1, q1⟩
    have hm := visit_measure w h g q n
    rw [hv] at hm
    obtain ⟨hle, t1, ht1⟩ := hm
    have hle' : occCount w h g1 + q1.length ≤ occCount w h g + q.length := hle
    have ht1' : q1 = q ++ t1 := ht1
    have hfold : (n :: L).foldl (visit w h) (g, q) = L.foldl (visit w h) (g1, q1) := by
      rw [List.foldl_cons, hv]
    rw [hfold]
    obtain ⟨hle2, t2, ht2⟩ := ih g1 q1
    refine ⟨le_trans hle2 hle', t1 ++ t2, ?_⟩
    rw [ht2, ht1', List.append_assoc]

theorem visit_pres (w h : Nat) (g0 : Grid) (g : Grid) (q : List Pos) (pcur n : Pos)
    (hmid : MidInv w h g0 g q) (hreach : Reach w h g0 pcur) (hn : n ∈ nbrs pcur) :
    MidInv w h g0 (visit w h (g, q) n).1 (visit w h (g, q) n).2
    ∧ (inB w h n → g0 n.1 n.2 = Cell.occupied → n ∈ (visit w h (g, q) n).2) := by
  by_cases hc : inB w h n ∧ g n.1 n.2 = Cell.occupied
  · have hnotin : n ∉ q := by
      intro hmem
      have hp := (hmid.perc_iff n).mpr hmem
      rw [hc.2] at hp
      exact absurd hp (by decide)
    have hocc0 : g0 n.1 n.2 = Cell.occupied := by
      rw [← hmid.frame n hnotin]; exact hc.2
    have hreachn : Reach w h g0 n := Reach.step hreach hn hc.1 hocc0
    simp only [visit, hc, and_self, if_true]
    refine ⟨⟨?_, ?_, ?_, ?_, ?_⟩, ?_⟩
    · refine hmid.nodup.append (List.nodup_singleton n) ?_
      intro a ha hb
      rw [List.mem_singleton] at hb
      subst hb
      exact hnotin ha
    · exact List.mem_append_left _ hmid.seed_mem
    · intro p hp
      rcases List.mem_append.mp hp with hp | hp
      · exact hmid.sound p hp
      · rw [List.mem_singleton] at hp
        subst hp
        exact Or.inr ⟨hc.1, hocc0, hreachn⟩
    · intro p
      by_cases hpn : p = n
      · subst hpn
        rw [setCell_self]
        simp
      · rw [setCell_of_ne g n _ p.1 p.2 (fun he => hpn ((Prod.mk.eta).symm.trans he))]
        rw [hmid.perc_iff p]
        simp [List.mem_append, hpn]
    · intro p hp
      have hpq : p ∉ q := fun hc2 => hp (List.mem_append_left _ hc2)
      have hpn : p ≠ n := fun hc2 => hp (by rw [hc2]; exact List.mem_append_right _ (by simp))
      rw [setCell_of_ne g n _ p.1 p.2 (fun he => hpn ((Prod.mk.eta).symm.trans he))]
      exact hmid.frame p hpq
    · intro _ _
      exact List.mem_append_right _ (by simp)
  · simp only [visit, if_neg hc]
    refine ⟨hmid, ?_⟩
    intro hb ho
    by_contra hnin
    have hfr := hmid.frame n hnin
    rw [ho] at hfr
    exact hc ⟨hb, hfr⟩

theorem foldl_visit_pres (w h : Nat) (g0 : Grid) (pcur : Pos) (hreach : Reach w h g0 pcur)
    (L : List Pos) :
    ∀ (g : Grid) (q : List Pos), (∀ n ∈ L, n ∈ nbrs pcur) → MidInv w h g0 g q →
    MidInv w h g0 (L.foldl (visit w h) (g, q)).1 (L.foldl (visit w h) (g, q)).2
    ∧ ∀ n ∈ L, inB w h n → g0 n.1 n.2 = Cell.occupied →
        n ∈ (L.foldl (visit w h) (g, q)).2 := by
  induction L with
  | nil => intro g q _ hmid; exact ⟨hmid, by simp⟩
  | cons n L ih =>
    intro g q hL hmid
    rcases hv : visit w h (g, q) n with ⟨g1, q1⟩
    have hstep := visit_pres w h g0 g q pcur n hmid hreach (hL n (by simp))
    rw [hv] at hstep
    have hfold : (n :: L).foldl (visit w h) (g, q) = L.foldl (visit w h) (g1, q1) := by
      rw [List.foldl_cons, hv]
    rw [hfold]
    have hrest := ih g1 q1 (fun m hm => hL m (by simp [hm])) hstep.1
    refine ⟨hrest.1, ?_⟩
    intro m hm hb ho
    rcases List.mem_cons.mp hm with rfl | hm2
    · have hq1 : m ∈ q1 := hstep.2 hb ho
      obtain ⟨-, t, ht⟩ := foldl_visit_measure w h L g1 q1
      rw [ht]
      exact List.mem_append_left _ hq1
    · exact hrest.2 m hm2 hb ho

theorem bfsLoop_succ (w h : Nat) (fuel : Nat) (s : BfsState) :
    bfsLoop w h (fuel + 1) s =
      match s.q[s.head]? with
      | none => s
      | some p =>
          bfsLoop w h fuel
            { grid := ((nbrs p).foldl (visit w h) (s.grid, s.q)).1,
              q := ((nbrs p).foldl (visit w h) (s.grid, s.q)).2,
              head := s.head + 1,
              percolates := s.percolates || decide (p.1 = (w : Int) - 1) } := rfl

theorem loopInv_step (w h : Nat) (g0 : Grid) (s : BfsState) (p : Pos)
    (hq : s.q[s.head]? = some p) (hI : LoopInv w h g0 s) :
    LoopInv w h g0
      { grid := ((nbrs p).foldl (visit w h) (s.grid, s.q)).1,
        q := ((nbrs p).foldl (visit w h) (s.grid, s.q)).2,
        head := s.head + 1,
        percolates := s.percolates || decide (p.1 = (w : Int) - 1) }
    ∧ occCount w h ((nbrs p).foldl (visit w h) (s.grid, s.q)).1
        + (((nbrs p).foldl (visit w h) (s.grid, s.q)).2.length - (s.head + 1))
      < occCount w h s.grid + (s.q.length - s.head) := by
  have hlt : s.head < s.q.length := getElem?_some_lt _ _ _ hq
  have hpmem : p ∈ s.q := mem_of_getElem?_some _ _ _ hq
  have hreach : Reach w h g0 p := by
    rcases hI.mid.sound p hpmem with hps | ⟨-, -, hr⟩
    · rw [hps]; exact Reach.seed
    · exact hr
  obtain ⟨hmid2, hpost⟩ :=
    foldl_visit_pres w h g0 p hreach (nbrs p) s.grid s.q (fun n hn => hn) hI.mid
  obtain ⟨hmeas, t, ht⟩ := foldl_visit_measure w h (nbrs p) s.grid s.q
  have hlen2 : s.q.length ≤ ((nbrs p).foldl (visit w h) (s.grid, s.q)).2.length := by
    rw [ht]; simp
  refine ⟨⟨hmid2, ?_, ?_, ?_⟩, ?_⟩
  · show s.head + 1 ≤ ((nbrs p).foldl (visit w h) (s.grid, s.q)).2.length
    omega
  · intro i hi pi hpi n hn hb ho
    show n ∈ ((nbrs p).foldl (visit w h) (s.grid, s.q)).2
    have hi' : i < s.head + 1 := hi
    rcases Nat.lt_succ_iff_lt_or_eq.mp hi' with hi2 | hieq
    · have hilen : i < s.q.length := lt_of_lt_of_le hi2 hI.head_le
      have hpi' : s.q[i]? = some pi := by
        have hpi2 : ((nbrs p).foldl (visit w h) (s.grid, s.q)).2[i]? = some pi := hpi
        rw [ht, List.getElem?_append_left hilen] at hpi2
        exact hpi2
      have hmem := hI.closed i hi2 pi hpi' n hn hb ho
      rw [ht]
      exact List.mem_append_left _ hmem
    · subst hieq
      have hpi' : s.q[s.head]? = some pi := by
        have hpi2 : ((nbrs p).foldl (visit w h) (s.grid, s.q)).2[s.head]? = some pi := hpi
        rw [ht, List.getElem?_append_left hlt] at hpi2
        exact hpi2
      rw [hq] at hpi'
      have hpe : p = pi := Option.some.inj hpi'
      subst hpe
      exact hpost n hn hb ho
  · show (s.percolates || decide (p.1 = (w : Int) - 1)) = true ↔
      ∃ i, i < s.head + 1 ∧ ∃ pi,
        ((nbrs p).foldl (visit w h) (s.grid, s.q)).2[i]? = some pi ∧ pi.1 = (w : Int) - 1
    simp only [Bool.or_eq_true, decide_eq_true_eq]
    constructor
    · rintro (hperc | hpw)
      · obtain ⟨i, hi, pi, hpi, hcol⟩ := hI.percSpec.mp hperc
        have hilen : i < s.q.length := getElem?_some_lt _ _ _ hpi
        refine ⟨i, by omega, pi, ?_, hcol⟩
        rw [ht, List.getElem?_append_left hilen]
        exact hpi
      · refine ⟨s.head, by omega, p, ?_, hpw⟩
        rw [ht, List.getElem?_append_left hlt]
        exact hq
    · rintro ⟨i, hi, pi, hpi, hcol⟩
      rcases Nat.lt_succ_iff_lt_or_eq.mp hi with hi2 | hieq
      · left
        apply hI.percSpec.mpr
        have hilen : i < s.q.length := lt_of_lt_of_le hi2 hI.head_le
        rw [ht, List.getElem?_append_left hilen] at hpi
        exact ⟨i, hi2, pi, hpi, hcol⟩
      · right
        subst hieq
        rw [ht, List.getElem?_append_left hlt, hq] at hpi
        rw [Option.some.inj hpi]
        exact hcol
  · show occCount w h ((nbrs p).foldl (visit w h) (s.grid, s.q)).1
        + (((nbrs p).foldl (visit w h) (s.grid, s.q)).2.length - (s.head + 1))
      < occCount w h s.grid + (s.q.length - s.head)
    omega

theorem bfsLoop_inv (w h : Nat) (g0 : Grid) (fuel : Nat) :
    ∀ (s : BfsState), LoopInv w h g0 s →
      occCount w h s.grid + (s.q.length - s.head) ≤ fuel →
      LoopInv w h g0 (bfsLoop w h fuel s)
      ∧ (bfsLoop w h fuel s).head = (bfsLoop w h fuel s).q.length := by
  induction fuel with
  | zero =>
    intro s hI hm
    refine ⟨hI, ?_⟩
    show s.head = s.q.length
    have := hI.head_le
    omega
  | succ fuel ih =>
    intro s hI hm
    rw [bfsLoop_succ]
    rcases hq : s.q[s.head]? with _ | p
    · have hlen : s.q.length ≤ s.head := by
        by_contra hcon
        rw [List.getElem?_eq_getElem (by omega)] at hq
        exact Option.noConfusion hq
      refine ⟨hI, ?_⟩
      show s.head = s.q.length
      have := hI.head_le
      omega
    · obtain ⟨hI2, hdec⟩ := loopInv_step w h g0 s p hq hI
      refine ih _ hI2 ?_
      show occCount w h ((nbrs p).foldl (visit w h) (s.grid, s.q)).1
          + (((nbrs p).foldl (visit w h) (s.grid, s.q)).2.length - (s.head + 1)) ≤ fuel
      omega

theorem bfsLoop_fuel_le (w h : Nat) (fuel : Nat) :
    ∀ (s : BfsState) (fuel2 : Nat),
      occCount w h s.grid + (s.q.length - s.head) ≤ fuel → fuel ≤ fuel2 →
      bfsLoop w h fuel2 s = bfsLoop w h fuel s := by
  induction fuel with
  | zero =>
    intro s fuel2 hm _
    have hq : s.q[s.head]? = none := List.getElem?_eq_none (by omega)
    cases fuel2 with
    | zero => rfl
    | succ f2 =>
      rw [bfsLoop_succ, hq]
      rfl
  | succ fuel ih =>
    intro s fuel2 hm hle
    obtain ⟨f2, rfl⟩ : ∃ f2, fuel2 = f2 + 1 := ⟨fuel2 - 1, by omega⟩
    rw [bfsLoop_succ, bfsLoop_succ]
    rcases hq : s.q[s.head]? with _ | p
    · rfl
    · have hlt : s.head < s.q.length := getElem?_some_lt _ _ _ hq
      obtain ⟨hmeas, t, ht⟩ := foldl_visit_measure w h (nbrs p) s.grid s.q
      have hlen2 : s.q.length ≤ ((nbrs p).foldl (visit w h) (s.grid, s.q)).2.length := by
        rw [ht]; simp
      apply ih
      · show occCount w h ((nbrs p).foldl (visit w h) (s.grid, s.q)).1
            + (((nbrs p).foldl (visit w h) (s.grid, s.q)).2.length - (s.head + 1)) ≤ fuel
        omega
      · omega

theorem reach_mem_of_done (w h : Nat) (g0 : Grid) (s : BfsState)
    (hI : LoopInv w h g0 s) (hdone : s.head = s.q.length) :
    ∀ p : Pos, Reach w h g0 p → p ∈ s.q := by
  intro p hr
  induction hr with
  | seed => exact hI.mid.seed_mem
  | step hp hn hb ho ih =>
    obtain ⟨i, hi⟩ := getElem?_some_of_mem _ _ ih
    have hilt : i < s.q.length := getElem?_some_lt _ _ _ hi
    exact hI.closed i (by omega) _ hi _ hn hb ho

theorem mem_iff_markedP (w h : Nat) (g0 : Grid) (s : BfsState)
    (hI : LoopInv w h g0 s) (hdone : s.head = s.q.length) :
    ∀ p : Pos, p ∈ s.q ↔ MarkedP w h g0 p := by
  intro p
  constructor
  · intro hp
    rcases hI.mid.sound p hp with hps | ⟨-, ho, hr⟩
    · exact Or.inl hps
    · exact Or.inr ⟨ho, hr⟩
  · rintro (rfl | ⟨ho, hr⟩)
    · exact hI.mid.seed_mem
    · exact reach_mem_of_done w h g0 s hI hdone p hr

theorem percolates_iff_of_done (w h : Nat) (g0 : Grid) (s : BfsState)
    (hI : LoopInv w h g0 s) (hdone : s.head = s.q.length) :
    s.percolates = true ↔ ∃ p : Pos, MarkedP w h g0 p ∧ p.1 = (w : Int) - 1 := by
  rw [hI.percSpec]
  constructor
  · rintro ⟨i, hi, pi, hpi, hcol⟩
    exact ⟨pi, (mem_iff_markedP w h g0 s hI hdone pi).mp (mem_of_getElem?_some _ _ _ hpi), hcol⟩
  · rintro ⟨p, hmark, hcol⟩
    obtain ⟨i, hi⟩ :=
      getElem?_some_of_mem _ _ ((mem_iff_markedP w h g0 s hI hdone p).mpr hmark)
    have hilt : i < s.q.length := getElem?_some_lt _ _ _ hi
    exact ⟨i, by omega, p, hi, hcol⟩

theorem checkRun_inv (sys : PercolationSystem) :
    LoopInv sys.width sys.height (resetPercolated sys.grid) (checkRun sys)
    ∧ (checkRun sys).head = (checkRun sys).q.length := by
  have hI0 : LoopInv sys.width sys.height (resetPercolated sys.grid)
      { grid := setCell (resetPercolated sys.grid) (seedPos sys.height) Cell.percolated,
        q := [seedPos sys.height], head := 0, percolates := false } := by
    refine ⟨⟨?_, ?_, ?_, ?_, ?_⟩, ?_, ?_, ?_⟩ <;> dsimp only
    · exact List.nodup_singleton _
    · exact List.mem_singleton.mpr rfl
    · intro p hp
      rw [List.mem_singleton] at hp
      exact Or.inl hp
    · intro p
      by_cases hps : p = seedPos sys.height
      · subst hps
        rw [setCell_self]
        simp
      · rw [setCell_of_ne _ _ _ p.1 p.2 (fun he => hps ((Prod.mk.eta).symm.trans he))]
        constructor
        · intro hc
          exact absurd hc (resetPercolated_ne_percolated _ _ _)
        · intro hc
          rw [List.mem_singleton] at hc
          exact absurd hc hps
    · intro p hp
      rw [List.mem_singleton] at hp
      exact setCell_of_ne _ _ _ p.1 p.2 (fun he => hp ((Prod.mk.eta).symm.trans he))
    · exact Nat.zero_le _
    · intro i hi
      exact absurd hi (Nat.not_lt_zero i)
    · constructor
      · intro hc
        exact absurd hc (by decide)
      · rintro ⟨i, hi, -⟩
        exact absurd hi (Nat.not_lt_zero i)
  have hm0 : occCount sys.width sys.height
        (setCell (resetPercolated sys.grid) (seedPos sys.height) Cell.percolated)
      + (([seedPos sys.height] : List Pos).length - 0) ≤ sys.width * sys.height + 1 := by
    have := occCount_le sys.width sys.height
      (setCell (resetPercolated sys.grid) (seedPos sys.height) Cell.percolated)
    simp only [List.length_singleton]
    omega
  exact bfsLoop_inv sys.width sys.height (resetPercolated sys.grid)
    (sys.width * sys.height + 1) _ hI0 hm0

theorem check_marked_iff (sys : PercolationSystem) (x y : Int) :
    (sys.check_percolation).1.grid x y = Cell.percolated ↔
      MarkedP sys.width sys.height (resetPercolated sys.grid) (x, y) := by
  obtain ⟨hI, hdone⟩ := checkRun_inv sys
  show (checkRun sys).grid x y = Cell.percolated ↔ _
  exact (hI.mid.perc_iff (x, y)).trans
    (mem_iff_markedP sys.width sys.height (resetPercolated sys.grid) (checkRun sys) hI hdone (x, y))

theorem check_frame (sys : PercolationSystem) (x y : Int)
    (hnm : ¬ MarkedP sys.width sys.height (resetPercolated sys.grid) (x, y)) :
    (sys.check_percolation).1.grid x y = resetPercolated sys.grid x y := by
  obtain ⟨hI, hdone⟩ := checkRun_inv sys
  show (checkRun sys).grid x y = _
  refine hI.mid.frame (x, y) ?_
  intro hc
  exact hnm ((mem_iff_markedP sys.width sys.height (resetPercolated sys.grid)
    (checkRun sys) hI hdone (x, y)).mp hc)

theorem check_percolates_iff (sys : PercolationSystem) :
    (sys.check_percolation).2 = true ↔
      ∃ p : Pos, MarkedP sys.width sys.height (resetPercolated sys.grid) p
        ∧ p.1 = (sys.width : Int) - 1 := by
  obtain ⟨hI, hdone⟩ := checkRun_inv sys
  show (checkRun sys).percolates = true ↔ _
  exact percolates_iff_of_done sys.width sys.height (resetPercolated sys.grid)
    (checkRun sys) hI hdone

theorem reach_inB (w h : Nat) (g0 : Grid) :
    ∀ p : Pos, Reach w h g0 p → p = seedPos h ∨ inB w h p := by
  intro p hr
  induction hr with
  | seed => exact Or.inl rfl
  | step _ _ hb _ _ => exact Or.inr hb

theorem markedP_bounds (w h : Nat) (g0 : Grid) (hh : 0 < h) (p : Pos)
    (hm : MarkedP w h g0 p) : 0 ≤ p.2 ∧ p.2 < (h : Int) := by
  have hseed : 0 ≤ (seedPos h).2 ∧ (seedPos h).2 < (h : Int) := by
    have hdiv : h / 2 < h := Nat.div_lt_self hh one_lt_two
    constructor
    · show (0 : Int) ≤ ((h / 2 : Nat) : Int)
      omega
    · show ((h / 2 : Nat) : Int) < (h : Int)
      omega
  rcases hm with hps | ⟨-, hr⟩
  · rw [hps]; exact hseed
  · rcases reach_inB w h g0 p hr with hps | hb
    · rw [hps]; exact hseed
    · exact ⟨hb.2.2.1, hb.2.2.2⟩

theorem reach_congr (w h : Nat) (a b : Grid)
    (hab : ∀ p : Pos, p ≠ seedPos h → a p.1 p.2 = b p.1 p.2) :
    ∀ p : Pos, Reach w h a p → Reach w h b p := by
  intro p hr
  induction hr with
  | seed => exact Reach.seed
  | @step pp nn hp hn hb ho ih =>
    by_cases hs : nn = seedPos h
    · rw [hs]; exact Reach.seed
    · exact Reach.step ih hn hb (by rw [← hab nn hs]; exact ho)

theorem reach_step_up (w h : Nat) (g0 : Grid) (x y : Int)
    (hr : Reach w h g0 (x, y)) (hb : inB w h (x, y + 1))
    (ho : g0 x (y + 1) = Cell.occupied) : Reach w h g0 (x, y + 1) :=
  Reach.step hr (by simp [nbrs]) hb ho

theorem reach_step_down (w h : Nat) (g0 : Grid) (x y : Int)
    (hr : Reach w h g0 (x, y)) (hb : inB w h (x, y - 1))
    (ho : g0 x (y - 1) = Cell.occupied) : Reach w h g0 (x, y - 1) :=
  Reach.step hr (by simp [nbrs]) hb ho

theorem reach_step_right (w h : Nat) (g0 : Grid) (x y : Int)
    (hr : Reach w h g0 (x, y)) (hb : inB w h (x + 1, y))
    (ho : g0 (x + 1) y = Cell.occupied) : Reach w h g0 (x + 1, y) :=
  Reach.step hr (by simp [nbrs]) hb ho

theorem reach_all_of_occupied (w h : Nat) (g0 : Grid) (hw : 0 < w) (hh : 0 < h)
    (hall : ∀ x y : Int, 0 ≤ x → x < (w : Int) → 0 ≤ y → y < (h : Int) →
      g0 x y = Cell.occupied) :
    ∀ p : Pos, inB w h p → Reach w h g0 p := by
  have hc0 : (0 : Int) ≤ ((h / 2 : Nat) : Int) := by omega
  have hch : ((h / 2 : Nat) : Int) < (h : Int) := by
    have := Nat.div_lt_self hh one_lt_two
    omega
  have hup : ∀ k : Nat, ((h / 2 : Nat) : Int) + k < (h : Int) →
      Reach w h g0 (0, ((h / 2 : Nat) : Int) + k) := by
    intro k
    induction k with
    | zero =>
      intro _
      have : ((0 : Int), ((h / 2 : Nat) : Int) + (0 : Nat)) = seedPos h := by
        simp [seedPos]
      rw [this]
      exact Reach.seed
    | succ k ih =>
      intro hk
      have hk' : ((h / 2 : Nat) : Int) + k < (h : Int) := by push_cast at hk ⊢; omega
      have hb : inB w h (0, ((h / 2 : Nat) : Int) + k + 1) := by
        refine ⟨le_refl 0, by omega, by omega, ?_⟩
        show ((h / 2 : Nat) : Int) + k + 1 < (h : Int)
        push_cast at hk
        omega
      have ho : g0 0 (((h / 2 : Nat) : Int) + k + 1) = Cell.occupied :=
        hall 0 _ (le_refl 0) (by omega) (by omega) hb.2.2.2
      have hr := reach_step_up w h g0 0 (((h / 2 : Nat) : Int) + k) (ih hk') hb ho
      have : ((h / 2 : Nat) : Int) + ((k + 1 : Nat) : Int) = ((h / 2 : Nat) : Int) + k + 1 := by
        push_cast
        ring
      rw [this]
      exact hr
  have hdown : ∀ k : Nat, (k : Int) ≤ ((h / 2 : Nat) : Int) →
      Reach w h g0 (0, ((h / 2 : Nat) : Int) - k) := by
    intro k
    induction k with
    | zero =>
      intro _
      have : ((0 : Int), ((h / 2 : Nat) : Int) - (0 : Nat)) = seedPos h := by
        simp [seedPos]
      rw [this]
      exact Reach.seed
    | succ k ih =>
      intro hk
      have hk' : (k : Int) ≤ ((h / 2 : Nat) : Int) := by push_cast at hk ⊢; omega
      have hb : inB w h (0, ((h / 2 : Nat) : Int) - k - 1) := by
        refine ⟨le_refl 0, by omega, ?_, ?_⟩
        · show (0 : Int) ≤ ((h / 2 : Nat) : Int) - k - 1
          push_cast at hk
          omega
        · show ((h / 2 : Nat) : Int) - k - 1 < (h : Int)
          omega
      have ho : g0 0 (((h / 2 : Nat) : Int) - k - 1) = Cell.occupied :=
        hall 0 _ (le_refl 0) (by omega) hb.2.2.1 hb.2.2.2
      have hr := reach_step_down w h g0 0 (((h / 2 : Nat) : Int) - k) (ih hk') hb ho
      have : ((h / 2 : Nat) : Int) - ((k + 1 : Nat) : Int) = ((h / 2 : Nat) : Int) - k - 1 := by
        push_cast
        ring
      rw [this]
      exact hr
  have hcol0 : ∀ y : Int, 0 ≤ y → y < (h : Int) → Reach w h g0 (0, y) := by
    intro y hy1 hy2
    by_cases hyc : ((h / 2 : Nat) : Int) ≤ y
    · have : y = ((h / 2 : Nat) : Int) + ((y - ((h / 2 : Nat) : Int)).toNat : Nat) := by omega
      rw [this]
      exact hup _ (by omega)
    · have : y = ((h / 2 : Nat) : Int) - (((((h / 2 : Nat) : Int)) - y).toNat : Nat) := by omega
      rw [this]
      exact hdown _ (by omega)
  have hcols : ∀ j : Nat, (j : Int) < (w : Int) → ∀ y : Int, 0 ≤ y → y < (h : Int) →
      Reach w h g0 ((j : Int), y) := by
    intro j
    induction j with
    | zero =>
      intro _ y hy1 hy2
      exact hcol0 y hy1 hy2
    | succ j ih =>
      intro hj y hy1 hy2
      have hj' : (j : Int) < (w : Int) := by push_cast at hj ⊢; omega
      have hb : inB w h ((j : Int) + 1, y) := by
        refine ⟨by omega, ?_, hy1, hy2⟩
        show (j : Int) + 1 < (w : Int)
        push_cast at hj
        omega
      have ho : g0 ((j : Int) + 1) y = Cell.occupied :=
        hall _ y (by omega) hb.2.1 hy1 hy2
      have hr := reach_step_right w h g0 (j : Int) y (ih hj' y hy1 hy2) hb ho
      have : (((j + 1 : Nat)) : Int) = (j : Int) + 1 := by push_cast; ring
      rw [this]
      exact hr
  intro p hp
  obtain ⟨h1, h2, h3, h4⟩ := hp
  have hpe : p = (((p.1.toNat : Nat) : Int), p.2) := by
    have hx : ((p.1.toNat : Nat) : Int) = p.1 := by omega
    rw [hx]
  rw [hpe]
  exact hcols p.1.toNat (by omega) p.2 h3 h4

/-- C1 (amended): after check_percolation, a cell is Percolated exactly when
it is the seed cell (0, height/2), or it was Occupied after the reset pass
and is reachable from the seed through in-bounds Occupied cells under
4-connectivity. -/
theorem c1_percolated_iff_seed_or_occupied_reachable (sys : PercolationSystem) :
    ∀ x y : Int,
      (sys.check_percolation).1.grid x y = Cell.percolated ↔
        ((x, y) = seedPos sys.height
          ∨ (resetPercolated sys.grid x y = Cell.occupied
             ∧ Reach sys.width sys.height (resetPercolated sys.grid) (x, y))) := by
  intro x y
  exact check_marked_iff sys x y

/-- C1 fails as stated: on a 1 by 1 all-Empty grid the seed cell (0, 0) is
Percolated after the check although it was not Occupied before it, so the
Percolated set is not exactly the set of Occupied reachable cells. -/
theorem c1_counterexample_empty_seed :
    ¬ ∀ x y : Int,
      ((PercolationSystem.mk 1 1 (fun _ _ => Cell.empty)).check_percolation).1.grid x y
          = Cell.percolated ↔
        (resetPercolated (fun _ _ => Cell.empty) x y = Cell.occupied
         ∧ Reach 1 1 (resetPercolated (fun _ _ => Cell.empty)) (x, y)) := by
  intro hAll
  have h00 := (hAll 0 0).mp (by decide)
  exact absurd h00.1 (by decide)

/-- C2: check_percolation returns true exactly when some cell of column
width - 1 is reached (equivalently, is Percolated at the end of the
traversal); in particular, when width = 1 the result is always true. -/
theorem c2_percolates_iff_right_column (sys : PercolationSystem)
    (hw : 0 < sys.width) (hh : 0 < sys.height) :
    ((sys.check_percolation).2 = true ↔
      ∃ y : Int, 0 ≤ y ∧ y < (sys.height : Int) ∧
        (sys.check_percolation).1.grid ((sys.width : Int) - 1) y = Cell.percolated)
    ∧ (sys.width = 1 → (sys.check_percolation).2 = true) := by
  constructor
  · rw [check_percolates_iff sys]
    constructor
    · rintro ⟨p, hm, hcol⟩
      obtain ⟨hb1, hb2⟩ := markedP_bounds sys.width sys.height _ hh p hm
      refine ⟨p.2, hb1, hb2, ?_⟩
      rw [check_marked_iff sys ((sys.width : Int) - 1) p.2]
      have hpe : ((sys.width : Int) - 1, p.2) = p := by
        rw [← hcol]
      rw [hpe]
      exact hm
    · rintro ⟨y, hy1, hy2, hg⟩
      exact ⟨((sys.width : Int) - 1, y), (check_marked_iff sys _ y).mp hg, rfl⟩
  · intro h1
    rw [check_percolates_iff sys]
    refine ⟨seedPos sys.height, Or.inl rfl, ?_⟩
    show (seedPos sys.height).1 = (sys.width : Int) - 1
    rw [h1]
    simp [seedPos]

/-- C2 witness: a 1 by 1 system percolates. -/
theorem c2_witness :
    ((PercolationSystem.mk 1 1 (fun _ _ => Cell.empty)).check_percolation).2 = true :=
  (c2_percolates_iff_right_column (PercolationSystem.mk 1 1 (fun _ _ => Cell.empty))
    (by decide) (by decide)).2 rfl

/-- C3: for every prior grid and every regeneration (any draws, any p), after
check_percolation the cell (0, height/2) is Percolated. -/
theorem c3_seed_always_percolated (sys : PercolationSystem) (r : Int → Int → ℚ) (p : ℚ) :
    ((sys.update_grid r p).check_percolation).1.grid 0 ((sys.height / 2 : Nat) : Int)
      = Cell.percolated := by
  apply (check_marked_iff (sys.update_grid r p) 0 ((sys.height / 2 : Nat) : Int)).mpr
  exact Or.inl rfl

/-- C4: running check_percolation twice in a row gives the same boolean and
the same grid as running it once. -/
theorem c4_check_idempotent (sys : PercolationSystem) :
    (PercolationSystem.check_percolation (sys.check_percolation).1).2
        = (sys.check_percolation).2
    ∧ ∀ x y : Int,
        (PercolationSystem.check_percolation (sys.check_percolation).1).1.grid x y
          = (sys.check_percolation).1.grid x y := by
  have hagree : ∀ p : Pos, p ≠ seedPos sys.height →
      resetPercolated (sys.check_percolation).1.grid p.1 p.2
        = resetPercolated sys.grid p.1 p.2 := by
    intro p hps
    by_cases hm : MarkedP sys.width sys.height (resetPercolated sys.grid) p
    · have hm' : MarkedP sys.width sys.height (resetPercolated sys.grid) (p.1, p.2) := by
        rw [Prod.mk.eta]; exact hm
      have h1 : (sys.check_percolation).1.grid p.1 p.2 = Cell.percolated :=
        (check_marked_iff sys p.1 p.2).mpr hm'
      have h2 := resetPercolated_of_percolated (sys.check_percolation).1.grid p.1 p.2 h1
      have h3 : resetPercolated sys.grid p.1 p.2 = Cell.occupied := by
        rcases hm with hps2 | ⟨ho, -⟩
        · exact absurd hps2 hps
        · exact ho
      rw [h2, h3]
    · have hm' : ¬ MarkedP sys.width sys.height (resetPercolated sys.grid) (p.1, p.2) := by
        rw [Prod.mk.eta]; exact hm
      have h1 : (sys.check_percolation).1.grid p.1 p.2 = resetPercolated sys.grid p.1 p.2 :=
        check_frame sys p.1 p.2 hm'
      have h2 : (sys.check_percolation).1.grid p.1 p.2 ≠ Cell.percolated := by
        rw [h1]; exact resetPercolated_ne_percolated _ _ _
      rw [resetPercolated_of_ne _ _ _ h2, h1]
  have hMiff : ∀ p : Pos,
      MarkedP sys.width sys.height (resetPercolated (sys.check_percolation).1.grid) p ↔
        MarkedP sys.width sys.height (resetPercolated sys.grid) p := by
    intro p
    by_cases hps : p = seedPos sys.height
    · subst hps
      exact iff_of_true (Or.inl rfl) (Or.inl rfl)
    · constructor
      · rintro (hps2 | ⟨ho, hr⟩)
        · exact absurd hps2 hps
        · refine Or.inr ⟨?_, ?_⟩
          · rw [← hagree p hps]; exact ho
          · exact reach_congr sys.width sys.height _ _ (fun q hq => hagree q hq) p hr
      · rintro (hps2 | ⟨ho, hr⟩)
        · exact absurd hps2 hps
        · refine Or.inr ⟨?_, ?_⟩
          · rw [hagree p hps]; exact ho
          · exact reach_congr sys.width sys.height _ _
              (fun q hq => (hagree q hq).symm) p hr
  constructor
  · have hiff : ((PercolationSystem.check_percolation (sys.check_percolation).1).2 = true) ↔
        ((sys.check_percolation).2 = true) := by
      rw [check_percolates_iff (sys.check_percolation).1, check_percolates_iff sys]
      constructor
      · rintro ⟨p, hm, hc⟩
        exact ⟨p, (hMiff p).mp hm, hc⟩
      · rintro ⟨p, hm, hc⟩
        exact ⟨p, (hMiff p).mpr hm, hc⟩
    rcases hb1 : (PercolationSystem.check_percolation (sys.check_percolation).1).2 <;>
      rcases hb2 : (sys.check_percolation).2 <;> simp_all
  · intro x y
    by_cases hm : MarkedP sys.width sys.height (resetPercolated sys.grid) (x, y)
    · rw [(check_marked_iff (sys.check_percolation).1 x y).mpr ((hMiff (x, y)).mpr hm),
        (check_marked_iff sys x y).mpr hm]
    · have hm2 : ¬ MarkedP sys.width sys.height
          (resetPercolated (sys.check_percolation).1.grid) (x, y) :=
        fun hc => hm ((hMiff (x, y)).mp hc)
      rw [check_frame (sys.check_percolation).1 x y hm2, check_frame sys x y hm]
      have hps : ((x, y) : Pos) ≠ seedPos sys.height := fun he => hm (Or.inl he)
      exact hagree (x, y) hps

theorem seed_inB (w h : Nat) (hw : 0 < w) (hh : 0 < h) : inB w h (seedPos h) := by
  have hdiv : h / 2 < h := Nat.div_lt_self hh one_lt_two
  refine ⟨?_, ?_, ?_, ?_⟩
  · show (0 : Int) ≤ (0 : Int)
    exact le_refl 0
  · show (0 : Int) < (w : Int)
    omega
  · show (0 : Int) ≤ ((h / 2 : Nat) : Int)
    omega
  · show ((h / 2 : Nat) : Int) < (h : Int)
    omega

/-- C5: in the BFS run of check_percolation, no cell is ever enqueued twice,
the total number of enqueues is at most width * height, the loop runs until
the read position reaches the end of the queue, and any fuel of at least
width * height + 1 gives the same final state. -/
theorem c5_queue_nodup_bounded_terminates (sys : PercolationSystem)
    (hw : 0 < sys.width) (hh : 0 < sys.height) :
    (checkRun sys).q.Nodup
    ∧ (checkRun sys).q.length ≤ sys.width * sys.height
    ∧ (checkRun sys).head = (checkRun sys).q.length
    ∧ ∀ fuel : Nat, sys.width * sys.height + 1 ≤ fuel →
        bfsLoop sys.width sys.height fuel
          { grid := setCell (resetPercolated sys.grid) (seedPos sys.height) Cell.percolated,
            q := [seedPos sys.height], head := 0, percolates := false } = checkRun sys := by
  obtain ⟨hI, hdone⟩ := checkRun_inv sys
  have hnodup := hI.mid.nodup
  refine ⟨hnodup, ?_, hdone, ?_⟩
  · have hsubset : (checkRun sys).q.toFinset ⊆
        Finset.Ico (0 : Int) (sys.width : Int) ×ˢ Finset.Ico (0 : Int) (sys.height : Int) := by
      intro p hp
      rw [List.mem_toFinset] at hp
      have hb : inB sys.width sys.height p := by
        rcases hI.mid.sound p hp with hps | ⟨hb, -, -⟩
        · rw [hps]
          exact seed_inB sys.width sys.height hw hh
        · exact hb
      rw [Finset.mem_product, Finset.mem_Ico, Finset.mem_Ico]
      exact ⟨⟨hb.1, hb.2.1⟩, hb.2.2.1, hb.2.2.2⟩
    have hcard := Finset.card_le_card hsubset
    rw [List.toFinset_card_of_nodup hnodup] at hcard
    rw [Finset.card_product, Int.card_Ico, Int.card_Ico] at hcard
    simpa using hcard
  · intro fuel hfuel
    have hm0 : occCount sys.width sys.height
          (setCell (resetPercolated sys.grid) (seedPos sys.height) Cell.percolated)
        + (([seedPos sys.height] : List Pos).length - 0) ≤ sys.width * sys.height + 1 := by
      have := occCount_le sys.width sys.height
        (setCell (resetPercolated sys.grid) (seedPos sys.height) Cell.percolated)
      simp only [List.length_singleton]
      omega
    exact bfsLoop_fuel_le sys.width sys.height (sys.width * sys.height + 1) _ fuel hm0 hfuel

/-- C5 witness: concrete 2 by 2 run, the loop has processed its whole queue. -/
theorem c5_witness :
    (checkRun (PercolationSystem.mk 2 2 (fun _ _ => Cell.empty))).head
      = (checkRun (PercolationSystem.mk 2 2 (fun _ _ => Cell.empty))).q.length :=
  (c5_queue_nodup_bounded_terminates (PercolationSystem.mk 2 2 (fun _ _ => Cell.empty))
    (by decide) (by decide)).2.2.1

/-- C6: with p = 1 every uniform draw in [0,1) is strictly below p, so after
update_grid every cell is Occupied, and check_percolation marks every
in-bounds cell Percolated and returns true. -/
theorem c6_p_one_all_percolated (sys : PercolationSystem) (r : Int → Int → ℚ)
    (hw : 0 < sys.width) (hh : 0 < sys.height)
    (hr : ∀ x y : Int, 0 ≤ r x y ∧ r x y < 1) :
    (∀ x y : Int, (sys.update_grid r 1).grid x y = Cell.occupied)
    ∧ ((sys.update_grid r 1).check_percolation).2 = true
    ∧ ∀ x y : Int, 0 ≤ x → x < (sys.width : Int) → 0 ≤ y → y < (sys.height : Int) →
        ((sys.update_grid r 1).check_percolation).1.grid x y = Cell.percolated := by
  have hocc : ∀ x y : Int, (sys.update_grid r 1).grid x y = Cell.occupied := by
    intro x y
    show (if r x y < 1 then Cell.occupied else Cell.empty) = Cell.occupied
    rw [if_pos (hr x y).2]
  have hreset : ∀ x y : Int,
      resetPercolated (sys.update_grid r 1).grid x y = Cell.occupied := by
    intro x y
    rw [resetPercolated_of_ne _ _ _ (by rw [hocc x y]; decide)]
    exact hocc x y
  have hreach := reach_all_of_occupied sys.width sys.height
    (resetPercolated (sys.update_grid r 1).grid) hw hh
    (fun x y _ _ _ _ => hreset x y)
  refine ⟨hocc, ?_, ?_⟩
  · rw [check_percolates_iff (sys.update_grid r 1)]
    refine ⟨((sys.width : Int) - 1, ((sys.height / 2 : Nat) : Int)), Or.inr ⟨?_, ?_⟩, rfl⟩
    · exact hreset _ _
    · apply hreach
      have hdiv : sys.height / 2 < sys.height := Nat.div_lt_self hh one_lt_two
      exact ⟨by omega, by omega, by omega, by omega⟩
  · intro x y h1 h2 h3 h4
    apply (check_marked_iff (sys.update_grid r 1) x y).mpr
    exact Or.inr ⟨hreset x y, hreach (x, y) ⟨h1, h2, h3, h4⟩⟩

/-- C6 witness: concrete 1 by 1 run with all draws 0 and p = 1 percolates. -/
theorem c6_witness :
    ((PercolationSystem.update_grid (PercolationSystem.mk 1 1 (fun _ _ => Cell.empty))
        (fun _ _ => 0) 1).check_percolation).2 = true :=
  (c6_p_one_all_percolated (PercolationSystem.mk 1 1 (fun _ _ => Cell.empty))
    (fun _ _ => 0) (by decide) (by decide)
    (fun _ _ => ⟨le_refl 0, zero_lt_one⟩)).2.1

/-- C7: with p = 0 no uniform draw is strictly below p, so after update_grid
every cell is Empty; check_percolation then marks exactly the seed
Percolated and returns true exactly when width = 1. -/
theorem c7_p_zero_only_seed (sys : PercolationSystem) (r : Int → Int → ℚ)
    (hw : 0 < sys.width) (hh : 0 < sys.height)
    (hr : ∀ x y : Int, 0 ≤ r x y) :
    (∀ x y : Int, (sys.update_grid r 0).grid x y = Cell.empty)
    ∧ (∀ x y : Int, ((sys.update_grid r 0).check_percolation).1.grid x y = Cell.percolated
        ↔ (x, y) = seedPos sys.height)
    ∧ (((sys.update_grid r 0).check_percolation).2 = true ↔ sys.width = 1) := by
  have hemp : ∀ x y : Int, (sys.update_grid r 0).grid x y = Cell.empty := by
    intro x y
    show (if r x y < 0 then Cell.occupied else Cell.empty) = Cell.empty
    rw [if_neg (not_lt.mpr (hr x y))]
  have hnm : ∀ p : Pos,
      MarkedP sys.width sys.height (resetPercolated (sys.update_grid r 0).grid) p ↔
        p = seedPos sys.height := by
    intro p
    constructor
    · rintro (hps | ⟨ho, -⟩)
      · exact hps
      · rw [resetPercolated_of_ne _ _ _ (by rw [hemp p.1 p.2]; decide), hemp p.1 p.2] at ho
        exact absurd ho (by decide)
    · intro hps
      exact Or.inl hps
  refine ⟨hemp, ?_, ?_⟩
  · intro x y
    rw [check_marked_iff (sys.update_grid r 0) x y]
    exact hnm (x, y)
  · rw [check_percolates_iff (sys.update_grid r 0)]
    constructor
    · rintro ⟨p, hm, hcol⟩
      have hm' : MarkedP sys.width sys.height
          (resetPercolated (sys.update_grid r 0).grid) p := hm
      rw [hnm p] at hm'
      subst hm'
      have hz : (0 : Int) = (sys.width : Int) - 1 := hcol
      omega
    · intro h1
      refine ⟨seedPos sys.height, (hnm _).mpr rfl, ?_⟩
      show (seedPos sys.height).1 = (sys.width : Int) - 1
      rw [h1]
      simp [seedPos]

/-- C7 witness: concrete width 2 run with all draws 0 and p = 0; the result
is true exactly when the width is 1. -/
theorem c7_witness :
    (((PercolationSystem.mk 2 1 (fun _ _ => Cell.empty)).update_grid
        (fun _ _ => 0) 0).check_percolation).2 = true ↔ (2 : Nat) = 1 :=
  (c7_p_zero_only_seed (PercolationSystem.mk 2 1 (fun _ _ => Cell.empty))
    (fun _ _ => 0) (by decide) (by decide) (fun _ _ => le_refl 0)).2.2

/-- C8: update_grid replaces the whole grid; a cell is Occupied exactly when
its draw is strictly below p, Empty otherwise, never Percolated, and the
dimensions are unchanged. -/
theorem c8_update_grid_bernoulli (sys : PercolationSystem) (r : Int → Int → ℚ) (p : ℚ)
    (x y : Int) :
    ((sys.update_grid r p).grid x y = Cell.occupied ↔ r x y < p)
    ∧ ((sys.update_grid r p).grid x y = Cell.empty ↔ ¬ r x y < p)
    ∧ (sys.update_grid r p).grid x y ≠ Cell.percolated
    ∧ (sys.update_grid r p).width = sys.width
    ∧ (sys.update_grid r p).height = sys.height := by
  by_cases hc : r x y < p <;> simp [PercolationSystem.update_grid, hc]

/-- C8 witness: a draw of 0 against p = 1 makes the cell Occupied, also on a
previously Percolated grid. -/
theorem c8_witness :
    (PercolationSystem.update_grid (PercolationSystem.mk 1 1 (fun _ _ => Cell.percolated))
        (fun _ _ => 0) 1).grid 0 0 = Cell.occupied :=
  (c8_update_grid_bernoulli (PercolationSystem.mk 1 1 (fun _ _ => Cell.percolated))
    (fun _ _ => 0) 1 0 0).1.mpr zero_lt_one

/-- C9: for p at or above the critical point the R2 trigger force is the
maximum 255; for p strictly below a positive critical point the force is
255 * (p / critical_point)^4 truncated to an integer. -/
theorem c9_trigger_force (is_percolated : Bool) (p c : ℚ) (pr : ℚ × ℚ) :
    (c ≤ p →
      (ControllerManager.set_percolation_feedback is_percolated p pr c).triggerForce = 255)
    ∧ (0 < c → p < c →
      (ControllerManager.set_percolation_feedback is_percolated p pr c).triggerForce
        = truncInt (255 * (p / c) ^ 4)) := by
  constructor
  · intro hpc
    simp only [ControllerManager.set_percolation_feedback]
    rw [if_neg (not_lt.mpr hpc)]
  · intro hc hpc
    simp only [ControllerManager.set_percolation_feedback]
    rw [if_pos hpc, if_pos hc]

/-- C9 witness: force saturates at 255 for p = 2 at critical point 1, and is
the truncated ramp value for p = 1/2 below critical point 1. -/
theorem c9_witness :
    (ControllerManager.set_percolation_feedback false 2 (0, 1) 1).triggerForce = 255
    ∧ (ControllerManager.set_percolation_feedback false (1/2) (0, 1) 1).triggerForce
        = truncInt (255 * ((1/2 : ℚ) / 1) ^ 4) :=
  ⟨(c9_trigger_force false 2 1 (0, 1)).1 one_le_two,
   (c9_trigger_force false (1/2) 1 (0, 1)).2 zero_lt_one one_half_lt_one⟩

/-- C10: check_percolation keeps the dimensions, force-marks only the seed,
and changes other cells only by the transitions Percolated to Occupied
(reset) and Occupied to Percolated (marking); in particular a non-seed cell
that was Empty stays Empty. -/
theorem c10_frame (sys : PercolationSystem) :
    (sys.check_percolation).1.width = sys.width
    ∧ (sys.check_percolation).1.height = sys.height
    ∧ (sys.check_percolation).1.grid (seedPos sys.height).1 (seedPos sys.height).2
        = Cell.percolated
    ∧ (∀ x y : Int, (x, y) ≠ seedPos sys.height →
        ((sys.check_percolation).1.grid x y = sys.grid x y
          ∨ (sys.grid x y = Cell.percolated
             ∧ (sys.check_percolation).1.grid x y = Cell.occupied)
          ∨ (sys.grid x y = Cell.occupied
             ∧ (sys.check_percolation).1.grid x y = Cell.percolated)))
    ∧ ∀ x y : Int, sys.grid x y = Cell.empty → (x, y) ≠ seedPos sys.height →
        (sys.check_percolation).1.grid x y = Cell.empty := by
  refine ⟨rfl, rfl, ?_, ?_, ?_⟩
  · apply (check_marked_iff sys _ _).mpr
    exact Or.inl Prod.mk.eta
  · intro x y hps
    by_cases hm : MarkedP sys.width sys.height (resetPercolated sys.grid) (x, y)
    · have hres : (sys.check_percolation).1.grid x y = Cell.percolated :=
        (check_marked_iff sys x y).mpr hm
      have ho : resetPercolated sys.grid x y = Cell.occupied := by
        rcases hm with hps2 | ⟨ho, -⟩
        · exact absurd hps2 hps
        · exact ho
      rcases hg : sys.grid x y with _ | _ | _
      · rw [resetPercolated_of_ne _ _ _ (by rw [hg]; decide), hg] at ho
        exact absurd ho (by decide)
      · exact Or.inr (Or.inr ⟨rfl, hres⟩)
      · exact Or.inl hres
    · have hres : (sys.check_percolation).1.grid x y = resetPercolated sys.grid x y :=
        check_frame sys x y hm
      rcases hg : sys.grid x y with _ | _ | _
      · exact Or.inl (by rw [hres, resetPercolated_of_ne _ _ _ (by rw [hg]; decide), hg])
      · exact Or.inl (by rw [hres, resetPercolated_of_ne _ _ _ (by rw [hg]; decide), hg])
      · exact Or.inr (Or.inl ⟨rfl, by rw [hres, resetPercolated_of_percolated _ _ _ hg]⟩)
  · intro x y hemp hps
    have hm : ¬ MarkedP sys.width sys.height (resetPercolated sys.grid) (x, y) := by
      rintro (hps2 | ⟨ho, -⟩)
      · exact hps hps2
      · rw [resetPercolated_of_ne _ _ _ (by rw [hemp]; decide), hemp] at ho
        exact absurd ho (by decide)
    rw [check_frame sys x y hm, resetPercolated_of_ne _ _ _ (by rw [hemp]; decide), hemp]

/-- C10 witness: a concrete non-seed Empty cell stays Empty. -/
theorem c10_witness :
    ((PercolationSystem.mk 2 1 (fun _ _ => Cell.empty)).check_percolation).1.grid 1 0
      = Cell.empty :=
  (c10_frame (PercolationSystem.mk 2 1 (fun _ _ => Cell.empty))).2.2.2.2 1 0 rfl (by decide)

end Percolation
